import Mathlib

/-!
# A verification development for the Remus RDMA runtime core

This file gives a shallow embedding, in Lean 4, of the allocator, ring
allocators, fat-pointer arithmetic, sequenced-group discovery, barrier and
shutdown protocol of the Remus distributed shared-memory runtime
(`rdma/include/remus/*.h`), together with theorems about them.

Machine integers (`uint64_t`, `size_t`) are embedded as `Nat` with explicit
`% 2 ^ 64` at the points where C++ overflow semantics matter.  Fatal errors
(`REMUS_FATAL` / failed `REMUS_ASSERT`, which always call `_Exit(1)`) are
embedded as `Option`/sum results, `none` (or a dedicated constructor) marking
process termination.  Remote RDMA operations issued by a compute thread are
embedded as explicit event traces, with the values observed by FAA/read
operations supplied by oracle streams, so that any concurrent interleaving
corresponds to some choice of oracle.
-/

namespace Remus

/-! ## Machine arithmetic -/

/-- The modulus `2 ^ 64` of `uint64_t` arithmetic. -/
def U64 : Nat := 2 ^ 64

/-- Unsigned 64-bit subtraction `a - b` (two's complement wrap-around). -/
def u64sub (a b : Nat) : Nat := (a + (U64 - b % U64)) % U64

/-! ## Fat pointers (`rdma_ptr`, qp_sched_pol.h)

The C++ `rdma_ptr<T>` is a single `uint64_t` word `raw_`; the element type
only enters through `sizeof(element_type)`, which we pass explicitly as the
`sizeofT : Nat` argument of the arithmetic operations. -/

/-- The constant `kAddressBits` of `rdma_ptr`: bits of a `uint64_t` minus bits of the
`uint16_t` id type. -/
def kAddressBits : Nat := 64 - 16

/-- The constant `kAddressBitmask = ((1ul << kAddressBits) - 1)`. -/
def kAddressBitmask : Nat := (1 <<< kAddressBits) - 1

/-- The constant `kIdBitmask = (uint64_t)(-1) ^ kAddressBitmask`. -/
def kIdBitmask : Nat := (U64 - 1) ^^^ kAddressBitmask

/-- The C++ `rdma_ptr<T>`: a single 64-bit word.  (`raw_ < 2 ^ 64` is a
hypothesis of the theorems, mirroring the `uint64_t` type of the field.) -/
structure rdma_ptr where
  raw_ : Nat
deriving Repr, DecidableEq

namespace rdma_ptr

/-- Constructor `rdma_ptr(id_type id, uint64_t address)`:
`raw_ = (((uint64_t)id) << kAddressBits) | (address & kAddressBitmask)`.
The first argument is a `uint16_t`, hence the `% 2 ^ 16`. -/
def ofIdAddress (id address : Nat) : rdma_ptr :=
  ⟨((id % 2 ^ 16) <<< kAddressBits) ||| (address &&& kAddressBitmask)⟩

/-- Accessor `id()`: `(raw_ & kIdBitmask) >> kAddressBits`. -/
def id (p : rdma_ptr) : Nat := (p.raw_ &&& kIdBitmask) >>> kAddressBits

/-- Accessor `address()`: `raw_ & kAddressBitmask`. -/
def address (p : rdma_ptr) : Nat := p.raw_ &&& kAddressBitmask

/-- Accessor `raw()`. -/
def raw (p : rdma_ptr) : Nat := p.raw_

/-- The C++ `operator+=(s)`:
`address = (raw_ + sizeof(element_type) * s) & kAddressBitmask;`
`raw_ = (raw_ & kIdBitmask) | address`.  The addition is `uint64_t`
arithmetic, hence the `% U64`. -/
def addAssign (p : rdma_ptr) (sizeofT s : Nat) : rdma_ptr :=
  ⟨(p.raw_ &&& kIdBitmask) ||| (((p.raw_ + sizeofT * s) % U64) &&& kAddressBitmask)⟩

/-- The C++ `operator+(s)`: copies `*this` and applies `+=`. -/
def add (p : rdma_ptr) (sizeofT s : Nat) : rdma_ptr := p.addAssign sizeofT s

/-- The C++ `operator-=(s)`:
`address = (raw_ - sizeof(element_type) * s) & kAddressBitmask;`
`raw_ = (raw_ & kIdBitmask) | address`, with `uint64_t` subtraction. -/
def subAssign (p : rdma_ptr) (sizeofT s : Nat) : rdma_ptr :=
  ⟨(p.raw_ &&& kIdBitmask) ||| (u64sub p.raw_ (sizeofT * s) &&& kAddressBitmask)⟩

/-- The C++ `operator-(s)`: copies `*this` and applies `-=`. -/
def sub (p : rdma_ptr) (sizeofT s : Nat) : rdma_ptr := p.subAssign sizeofT s

/-- Pre/post-increment `++`: `*this += 1`. -/
def inc (p : rdma_ptr) (sizeofT : Nat) : rdma_ptr := p.addAssign sizeofT 1

/-- Pre/post-decrement `--`: `*this -= 1`. -/
def dec (p : rdma_ptr) (sizeofT : Nat) : rdma_ptr := p.subAssign sizeofT 1

end rdma_ptr

/-! ## Bump-allocator size classes (`BumpAllocator`, simple_async_compute_thread.h) -/

/-- Requests at or below this size round to the nearest 64 bytes. -/
def ALLOC_SMALL_THRESH : Nat := 1024

/-- Requests at or below this size round to the nearest 1024 bytes. -/
def ALLOC_MED_THRESH : Nat := 8192

/-- The size `sizeof(header_t)`: two `uint64_t` fields (`size_` and `padding_`). -/
def HEADER_SIZE : Nat := 16

/-- The C++ `BumpAllocator::calculate_slabclass(uint64_t size)`.  The C++ additions
are `uint64_t`, hence the `% U64`. -/
def calculate_slabclass (size : Nat) : Nat :=
  if size ≤ ALLOC_SMALL_THRESH then (((size + 63) % U64) >>> 6) <<< 6
  else if size ≤ ALLOC_MED_THRESH then (((size + 1023) % U64) >>> 10) <<< 10
  else (((size + 63) % U64) >>> 6) <<< 6

/-- The C++ `BumpAllocator::compute_size<T>(n) = calculate_slabclass(sizeof(T)*n + HEADER_SIZE)`,
with `sizeof(T)` passed explicitly (the multiplication and addition are
`size_t` arithmetic). -/
def compute_size (sizeofT n : Nat) : Nat :=
  calculate_slabclass ((sizeofT * n + HEADER_SIZE) % U64)

/-- Specification-side rounding: `s` rounded up to the next multiple of `m`. -/
def roundUpTo (m s : Nat) : Nat := ((s + m - 1) / m) * m

/-! ## ControlBlock and header layout (util.h, simple_async_compute_thread.h)

`struct alignas(64) ControlBlock` has, in order, the 8-byte fields `size_`,
`allocated_`, `control_flag_`, `barrier_`, `root_`; `struct header_t` has the
8-byte fields `size_` and `padding_`. -/

/-- The offset `offsetof(ControlBlock, allocated_)`. -/
def ALLOCATED_OFF : Nat := 8

/-- The offset `offsetof(ControlBlock, control_flag_)`. -/
def CONTROL_FLAG_OFF : Nat := 16

/-- The offset `offsetof(ControlBlock, barrier_)`. -/
def BARRIER_OFF : Nat := 24

/-- The offset `offsetof(header_t, size_)`. -/
def HDR_SIZE_OFF : Nat := 0

/-- The offset `offsetof(header_t, padding_)`. -/
def HDR_PADDING_OFF : Nat := 8

/-! ## The local free lists of the bump allocator
(`BumpAllocator::reclaim` / `try_allocate_local`) -/

/-- The local free-list state of a `BumpAllocator`.  `freelists` embeds the
`std::unordered_map<uint64_t, std::vector<uint64_t>> freelists_` as a total
function (absent keys map to the empty vector; the C++ lazily inserts empty
vectors, which is observationally the same).  The vectors are used LIFO
(`push_back`/`back`/`pop_back`), embedded as lists with the most recently
pushed element first.  `free_blocks` is `free_blocks_`, the vector of
`(size, address)` pairs for large blocks in `push_back` order (its order
matters because `try_allocate_local` scans it first-fit from the front). -/
structure BumpLocal where
  freelists : Nat → List Nat
  free_blocks : List (Nat × Nat)

/-- The C++ `BumpAllocator::reclaim(ptr, size)`: compute the slab class of `size`
and push `ptr - HEADER_SIZE` onto the large-block list (class `> 8192`) or
the free list of the exact class (otherwise).  `ptrRaw` is `ptr.raw()`;
valid allocations satisfy `HEADER_SIZE ≤ ptrRaw`, so the `uint64_t`
subtraction never wraps and is embedded as `Nat` subtraction. -/
def reclaim (st : BumpLocal) (ptrRaw size : Nat) : BumpLocal :=
  let slabclass := calculate_slabclass size
  if ALLOC_MED_THRESH < slabclass then
    { st with free_blocks := st.free_blocks ++ [(slabclass, ptrRaw - HEADER_SIZE)] }
  else
    { st with freelists := fun c =>
        if c = slabclass then (ptrRaw - HEADER_SIZE) :: st.freelists slabclass
        else st.freelists c }

/-- The C++ `std::find_if` composed with `vector::erase`: the first element of `l`
satisfying `p`, together with the list with that element removed. -/
def findErase (p : Nat × Nat → Bool) :
    List (Nat × Nat) → Option ((Nat × Nat) × List (Nat × Nat))
  | [] => none
  | x :: xs =>
    if p x then some (x, xs)
    else (findErase p xs).map (fun r => (r.1, x :: r.2))

/-- The C++ `BumpAllocator::try_allocate_local(size)`: for large sizes, first-fit
scan of `free_blocks_` (erasing the hit); otherwise pop the back of the
free list of class `size`.  Returns the address just past the header. -/
def try_allocate_local (st : BumpLocal) (size : Nat) : Option Nat × BumpLocal :=
  if ALLOC_MED_THRESH < size then
    match findErase (fun chunk => decide (size ≤ chunk.1)) st.free_blocks with
    | some (chunk, rest) =>
      (some (chunk.2 + HEADER_SIZE), { st with free_blocks := rest })
    | none => (none, st)
  else
    match st.freelists size with
    | [] => (none, st)
    | a :: rest =>
      (some (a + HEADER_SIZE),
       { st with freelists := fun c => if c = size then rest else st.freelists c })

/-! ## The global bump path (`BumpAllocator::try_allocate_global`)

The remote side of an allocation is embedded as a trace of one-sided
operations; the values observed by the remote FAA and the hint reads are
supplied by oracles indexed by the loop iteration, so that every concurrent
execution corresponds to some oracle. -/

/-- A remote one-sided operation, as a trace event: `faa addr add was` is a
fetch-and-add of `add` on the `uint64_t` at `addr` whose pre-value was
`was`; `write addr val` is a remote write of `val` to `addr`; `read addr
was` is a remote read observing `was`. -/
inductive RemoteEv
  | faa (addr add was : Nat)
  | write (addr val : Nat)
  | read (addr was : Nat)
deriving Repr, DecidableEq

/-- Outcome of one iteration of the `while (true)` loop of
`try_allocate_global`: retry with the operations it issued, or return a
pointer. -/
inductive AllocStep
  | retry (trace : List RemoteEv)
  | done (trace : List RemoteEv) (ptr : Nat)
deriving Repr, DecidableEq

/-- One iteration of `BumpAllocator::try_allocate_global`'s loop, after the
policy chose `(mn_id, seg_id)`: `base = seg_locator(mn_id, seg_id)`,
`hintv` is the value read from `hint_locator(mn_id, seg_id)`, and `offset`
is the pre-value returned by the remote FAA of `+size` on
`base + offsetof(ControlBlock, allocated_)`.  If the hint check fails, no
remote operation is issued; if the FAA result overflows the segment, the
iteration retries with no further operation (no decrement); otherwise the
header's `size_` field is remotely written with `size`, its `padding_`
field with 0, and `ptr + HEADER_SIZE` is returned.  (The local CAS loop
that raises the hint touches no remote memory and is elided from the
trace.) -/
def allocStep (size seg_size base hintv offset : Nat) : AllocStep :=
  if seg_size < hintv + size then .retry []
  else if seg_size < offset + size then
    .retry [.faa (base + ALLOCATED_OFF) size offset]
  else
    .done [.faa (base + ALLOCATED_OFF) size offset,
           .write (base + offset + HDR_SIZE_OFF) size,
           .write (base + offset + HDR_PADDING_OFF) 0]
      (base + offset + HEADER_SIZE)

/-- The `while (true)` loop of `try_allocate_global`, with fuel (the C++
loop can run forever when the policy never finds a segment with room).
`policy i` is the pair returned by `mn_alloc_pol_.get_mn_seg()` on the
`i`-th iteration, `hintv i` and `faa i` the oracle values observed there.
Returns the concatenated remote trace and the returned pointer. -/
def try_allocate_global (size seg_size : Nat) (policy : Nat → Nat × Nat)
    (seg_locator : Nat → Nat → Nat) (hintv faa : Nat → Nat) :
    Nat → Nat → Option (List RemoteEv × Nat)
  | 0, _ => none
  | fuel + 1, i =>
    let base := seg_locator (policy i).1 (policy i).2
    match allocStep size seg_size base (hintv i) (faa i) with
    | .done tr ptr => some (tr, ptr)
    | .retry tr =>
      (try_allocate_global size seg_size policy seg_locator hintv faa fuel (i + 1)).map
        (fun r => (tr ++ r.1, r.2))

/-! ## The ring slot allocator (`ring_counter_t`, ring.h) -/

/-- The C++ `ring_counter_t::State`. -/
inductive SlotState
  | AVAILABLE
  | IN_USE
  | TO_BE_FREED
deriving Repr, DecidableEq

/-- The state the static methods of `ring_counter_t` operate on: the two
cursors and the per-slot assignment vector (`counter_num` is
`assignments.length`). -/
structure RingCounter where
  counter_start : Nat
  counter_end : Nat
  assignments : List SlotState
deriving Repr, DecidableEq

/-- Vector indexing `counter_assignments[i]` (all callers keep indices in
range; out-of-range reads default to `AVAILABLE`). -/
def slotAt (a : List SlotState) (i : Nat) : SlotState := (a[i]?).getD .AVAILABLE

/-- The C++ `ring_counter_t::acquire`: if the slot at `counter_end` is `AVAILABLE`,
mark it `IN_USE`, advance `counter_end` mod `counter_num` and return the
old `counter_end`; otherwise return `nullopt` and change nothing. -/
def rc_acquire (s : RingCounter) : Option Nat × RingCounter :=
  if slotAt s.assignments s.counter_end = .AVAILABLE then
    (some s.counter_end,
     { s with
        assignments := s.assignments.set s.counter_end .IN_USE,
        counter_end := (s.counter_end + 1) % s.assignments.length })
  else (none, s)

/-- The `while (counter_assignments[counter_start] == TO_BE_FREED)` loop of
`ring_counter_t::release`, with fuel (each iteration frees one slot, so
`counter_num` iterations always suffice: `rc_release` passes
`assignments.length`). -/
def rc_sweep : Nat → RingCounter → RingCounter
  | 0, s => s
  | fuel + 1, s =>
    if slotAt s.assignments s.counter_start = .TO_BE_FREED then
      rc_sweep fuel
        { s with
            assignments := s.assignments.set s.counter_start .AVAILABLE,
            counter_start := (s.counter_start + 1) % s.assignments.length }
    else s

/-- The C++ `ring_counter_t::release(idx)`: `none` embeds the fatal
`REMUS_ASSERT(counter_assignments[idx] == State::IN_USE, "ring_counter
double free is not allowed")`; otherwise the slot is marked `TO_BE_FREED`
and `counter_start` walks forward over consecutive `TO_BE_FREED` slots,
resetting each to `AVAILABLE`. -/
def rc_release (s : RingCounter) (idx : Nat) : Option RingCounter :=
  if slotAt s.assignments idx = .IN_USE then
    some (rc_sweep s.assignments.length
      { s with assignments := s.assignments.set idx .TO_BE_FREED })
  else none

/-- An operation on a ring counter: an `acquire()` call or a `release(idx)`
call. -/
inductive RingOp
  | acq
  | rel (idx : Nat)
deriving Repr, DecidableEq

/-- Run a sequence of `ring_counter_t` operations.  An acquire that returns
`nullopt` leaves the state unchanged (the caller decides what to do); a
release of a slot that is not `IN_USE` is fatal (`none`). -/
def rc_run : List RingOp → RingCounter → Option RingCounter
  | [], s => some s
  | .acq :: ops, s => rc_run ops (rc_acquire s).2
  | .rel i :: ops, s => (rc_release s i).bind (rc_run ops)

/-- The initial state of a ring counter of `n` slots (`ComputeThread`
initializes the assignment vectors to `AVAILABLE` and both cursors to 0). -/
def rc_init (n : Nat) : RingCounter := ⟨0, 0, List.replicate n .AVAILABLE⟩

/-- The cyclic-range shape of a ring counter: there are `len` busy slots,
they are exactly the slots cyclically following `counter_start`, and
`counter_end` is `len` past `counter_start` — i.e. the busy set is the
contiguous cyclic range `[start, end)` modulo `N`. -/
def RingShape (s : RingCounter) (len : Nat) : Prop :=
  s.counter_start < s.assignments.length
  ∧ len ≤ s.assignments.length
  ∧ s.counter_end = (s.counter_start + len) % s.assignments.length
  ∧ (∀ j, j < len →
      slotAt s.assignments ((s.counter_start + j) % s.assignments.length) ≠ .AVAILABLE)
  ∧ (∀ j, len ≤ j → j < s.assignments.length →
      slotAt s.assignments ((s.counter_start + j) % s.assignments.length) = .AVAILABLE)

/-! ## Sequenced-group discovery (`ComputeThread::find_seq_idx`)

All four sequenced operations (`ReadSeq`, `WriteSeq`, `ReadSeqAsync`,
`WriteSeqAsync`) call `find_seq_idx(ptr, coro_idx)` to choose the group the
new work request is appended to. -/

/-- What `find_seq_idx` inspects about one sequenced group
(`seq_send_wrs_t`): its `posted` flag and `send_wrs.size()`. -/
structure SeqGroup where
  posted : Bool
  wrCount : Nat
deriving Repr, DecidableEq

/-- Lookup in the `std::unordered_map<uint32_t, seq_send_wrs_t>`, embedded
as an association list (keys unique). -/
def glookup : List (Nat × SeqGroup) → Nat → Option SeqGroup
  | [], _ => none
  | (k, v) :: rest, k' => if k = k' then some v else glookup rest k'

/-- The per-coroutine state `find_seq_idx` operates on: the group map
`seq_send_wrs[coro_idx]` and the coroutine's ring counter
`seq_op_counter_{start,end,assignments}[coro_idx]` (whose capacity is
`CN_OPS_PER_THREAD`). -/
structure SeqState where
  groups : List (Nat × SeqGroup)
  ring : RingCounter
deriving Repr, DecidableEq

/-- The result of `find_seq_idx`: reuse the most recent group, allocate a
fresh group `idx` (the state records the new empty group and the advanced
ring), or exit fatally on a failed `REMUS_ASSERT`. -/
inductive FindSeqResult
  | reuse (idx : Nat)
  | fresh (idx : Nat) (s' : SeqState)
  | fatal
deriving Repr, DecidableEq

/-- The C++ `ComputeThread::find_seq_idx` for one coroutine slot, with
`capOps = CN_OPS_PER_THREAD` and `capWrs = CN_WRS_PER_SEQ`.  If the map is
non-empty, it looks up `last_seq_idx = (seq_op_counter_end + capOps - 1) %
capOps`; when that group exists and is not posted, it is reused — after the
fatal `REMUS_ASSERT(send_wrs.size() < CN_WRS_PER_SEQ)`.  Otherwise a fresh
group is created: fatal `REMUS_ASSERT(map.size() < CN_OPS_PER_THREAD)`,
then a `seq_idx_t` ring acquire (fatal if no slot is available), then the
`operator[]` insertion of a default group (`posted = false`, no WRs). -/
def find_seq_idx (capOps capWrs : Nat) (s : SeqState) : FindSeqResult :=
  let tryFresh : FindSeqResult :=
    if s.groups.length < capOps then
      match rc_acquire s.ring with
      | (some idx, ring') => .fresh idx ⟨(idx, ⟨false, 0⟩) :: s.groups, ring'⟩
      | (none, _) => .fatal
    else .fatal
  if s.groups ≠ [] then
    match glookup s.groups ((s.ring.counter_end + capOps - 1) % capOps) with
    | some g =>
      if g.posted = false then
        if g.wrCount < capWrs then
          .reuse ((s.ring.counter_end + capOps - 1) % capOps)
        else .fatal
      else tryFresh
    | none => tryFresh
  else tryFresh

/-! ## The sense-reversing barrier (`ComputeThread::arrive_control_barrier`)

The barrier word lives at `get_seg_start(0, 0) + offsetof(ControlBlock,
barrier_)`; its address is the `barrier` parameter below.  The values
observed by the remote FAA and by the spin reads are supplied by oracles,
so every concurrent execution corresponds to some oracle choice. -/

/-- The spin loop `while ((Read(barrier) & 1) != new_sense) {}`, driven by
the oracle stream of values the successive reads observe.  Returns the
observed values, the last one having low bit `new_sense`, or `none` when
the stream is exhausted first (the C++ spins forever in that case). -/
def barrierSpin (new_sense : Nat) : List Nat → Option (List Nat)
  | [] => none
  | r :: rs =>
    if r &&& 1 ≠ new_sense then (barrierSpin new_sense rs).map (fun l => r :: l)
    else some [r]

/-- The C++ `ComputeThread::arrive_control_barrier(total_threads)`: FAA `+2` on the
barrier word; let `was` be the pre-value and `new_sense = 1 - (was & 1)`.
If `was >> 1 == total_threads - 1`, write `new_sense` to the barrier word
and return `true`; otherwise spin-read the barrier word until its low bit
equals `new_sense`, then return `true`.  Returns the trace of operations on
the barrier word and the boolean result (`none` = the spin never observes
the new sense, i.e. the C++ does not return). -/
def arrive_control_barrier (total_threads barrier was : Nat) (reads : List Nat) :
    Option (List RemoteEv × Bool) :=
  let new_sense := 1 - (was &&& 1)
  if was >>> 1 = total_threads - 1 then
    some ([.faa barrier 2 was, .write barrier new_sense], true)
  else
    (barrierSpin new_sense reads).map
      (fun l => (.faa barrier 2 was :: l.map (fun r => .read barrier r), true))

/-! ## The ring buffer allocator (`ring_buf_t`, ring.h)

Addresses are embedded as `Nat` (the C++ works on `uint8_t*` into one
mapped buffer, so no wrap-around arises).  The
`std::unordered_map<uint8_t*, buf_allocation_t>` is embedded as an
association list with unique keys; `binsert` is `operator[]` assignment
(replace or insert), `berase` is `erase`.  The pointer-ordering
`REMUS_ASSERT`s inside `release`'s sweep are diagnostics that hold on the
runs considered here and are elided. -/

/-- The C++ `ring_buf_t::buf_allocation_t`. -/
structure buf_allocation_t where
  next_available_addr : Nat
  in_use : Bool
deriving Repr, DecidableEq

/-- The state the static methods of `ring_buf_t` operate on. -/
structure RingBuf where
  ring_buf : Nat
  ring_buf_size : Nat
  ring_buf_start : Nat
  ring_buf_end : Nat
  allocations : List (Nat × buf_allocation_t)
deriving Repr, DecidableEq

/-- The C++ `unordered_map::find`. -/
def blookup : List (Nat × buf_allocation_t) → Nat → Option buf_allocation_t
  | [], _ => none
  | (k, v) :: rest, k' => if k = k' then some v else blookup rest k'

/-- The C++ `unordered_map::operator[] =`: replace the value at `k`, or insert. -/
def binsert (m : List (Nat × buf_allocation_t)) (k : Nat) (v : buf_allocation_t) :
    List (Nat × buf_allocation_t) :=
  match m with
  | [] => [(k, v)]
  | (k', v') :: rest => if k' = k then (k, v) :: rest else (k', v') :: binsert rest k v

/-- The C++ `unordered_map::erase`. -/
def berase : List (Nat × buf_allocation_t) → Nat → List (Nat × buf_allocation_t)
  | [], _ => []
  | (k', v') :: rest, k => if k' = k then rest else (k', v') :: berase rest k

/-- The C++ `ring_buf_t::nextalign`: `(address + (align - 1)) & ~(align - 1)`.  For
the power-of-two alignments all callers use, this mask arithmetic rounds
up to the next multiple of `align`, which is how it is embedded. -/
def nextalign (address align : Nat) : Nat := ((address + (align - 1)) / align) * align

/-- The C++ `ring_buf_t::keep_align`: if `ring_buf_end` is not aligned, insert a
padding chunk `{aligned, false}` at the old end and advance the end. -/
def keep_align (s : RingBuf) (align : Nat) : RingBuf :=
  let aligned := nextalign s.ring_buf_end align
  if aligned ≠ s.ring_buf_end then
    { s with
        ring_buf_end := aligned,
        allocations := binsert s.allocations s.ring_buf_end ⟨aligned, false⟩ }
  else s

/-- The C++ `ring_buf_t::acquire(size, align)`: the four cases of the C++ code.
Returns the allocated address (or `none` for `nullptr`) and the updated
state — note that a failing acquire may still have mutated the state (the
case-2 wrap marker is inserted before cases 3/4 can fail). -/
def rb_acquire (s : RingBuf) (size align : Nat) : Option Nat × RingBuf :=
  if s.ring_buf + s.ring_buf_size < size + nextalign s.ring_buf align then (none, s)
  else
    let real_size := size + nextalign s.ring_buf_end align - s.ring_buf_end
    if s.ring_buf_start ≤ s.ring_buf_end
        ∧ s.ring_buf_end + real_size ≤ s.ring_buf + s.ring_buf_size then
      let s1 := keep_align s align
      let buf := s1.ring_buf_end
      (some buf,
       { s1 with
          ring_buf_end := s1.ring_buf_end + size,
          allocations := binsert s1.allocations buf ⟨s1.ring_buf_end + size, true⟩ })
    else
      let s1 :=
        if s.ring_buf_start ≤ s.ring_buf_end then
          { s with
              allocations := binsert s.allocations s.ring_buf_end ⟨s.ring_buf, false⟩,
              ring_buf_end := s.ring_buf }
        else s
      let real_size2 := size + nextalign s1.ring_buf_end align - s1.ring_buf_end
      if s1.ring_buf_start = s1.ring_buf_end then
        if s1.allocations.length = 1 then
          let s2 := keep_align s1 align
          let buf := s2.ring_buf_end
          let newEnd := s2.ring_buf_end + size
          let nxt := if newEnd = s2.ring_buf + s2.ring_buf_size then s2.ring_buf else newEnd
          (some buf,
           { s2 with
              ring_buf_end := newEnd,
              allocations := binsert s2.allocations buf ⟨nxt, true⟩ })
        else (none, s1)
      else
        if s1.ring_buf_end + real_size2 ≤ s1.ring_buf_start then
          let s2 := keep_align s1 align
          let buf := s2.ring_buf_end
          let newEnd := s2.ring_buf_end + size
          let nxt := if newEnd = s2.ring_buf + s2.ring_buf_size then s2.ring_buf else newEnd
          (some buf,
           { s2 with
              ring_buf_end := newEnd,
              allocations := binsert s2.allocations buf ⟨nxt, true⟩ })
        else (none, s1)

/-- The `while` loop of `ring_buf_t::release`, with fuel (each iteration
erases one map entry, so `allocations.length + 1` iterations always
suffice). -/
def rb_sweep : Nat → RingBuf → RingBuf
  | 0, s => s
  | fuel + 1, s =>
    match blookup s.allocations s.ring_buf_start with
    | some a =>
      if a.in_use = false then
        rb_sweep fuel
          { s with
              ring_buf_start := a.next_available_addr,
              allocations := berase s.allocations s.ring_buf_start }
      else s
    | none => s

/-- The C++ `ring_buf_t::release(buf)`: `none` embeds the fatal
`REMUS_ASSERT(... find(buf) != end && in_use, "ring buf not exists or not
in use, can not release")`; otherwise the chunk is marked free and
`ring_buf_start` advances over consecutive free chunks, erasing each. -/
def rb_release (s : RingBuf) (buf : Nat) : Option RingBuf :=
  match blookup s.allocations buf with
  | some a =>
    if a.in_use then
      some (rb_sweep (s.allocations.length + 1)
        { s with allocations := binsert s.allocations buf ⟨a.next_available_addr, false⟩ })
    else none
  | none => none

/-! ## Graceful shutdown
(`ComputeThread::~ComputeThread`, `MemoryNode::~MemoryNode`)

`~ComputeThread()` loops `i = 0 .. LAST_MN_ID - FIRST_MN_ID` and performs
`FetchAndAdd(get_seg_start(i, 0) + offsetof(ControlBlock, control_flag_), 1)`.
`~MemoryNode()` spins `while (control_flag_.load() != total_threads_)` with
`total_threads_ = CN_THREADS * (LAST_CN_ID - FIRST_CN_ID + 1)`, then
returns.  The interleaving of all threads' destructors is modelled as a
transition system over the per-thread progress counters. -/

/-- The remote trace of one `~ComputeThread()`: one FAA(+1) on the
`control_flag_` word of segment 0 of each of the `numMNs` MemoryNodes, in
order; `seg_start i` is `get_seg_start(i, 0)` and `was i` the observed
pre-value. -/
def ctDtorTrace (numMNs : Nat) (seg_start was : Nat → Nat) : List RemoteEv :=
  (List.range numMNs).map (fun i => .faa (seg_start i + CONTROL_FLAG_OFF) 1 (was i))

/-- A configuration of the shutdown protocol: `done.getD t 0` is the number
of shutdown FAAs thread `t`'s destructor has completed so far (it has
signalled MemoryNodes `0 .. done t - 1`; the FAA loop of its destructor is
finished exactly when `done t = numMNs`). -/
def flagOf (done : List Nat) (m : Nat) : Nat := done.countP (fun d => decide (m < d))

/-- One step of the shutdown protocol: some thread whose destructor loop is
not finished performs its next FAA (on MemoryNode `done t`). -/
inductive ShutdownStep (numMNs : Nat) : List Nat → List Nat → Prop
  | faa (done : List Nat) (t : Nat) (ht : t < done.length)
      (hlt : done.getD t 0 < numMNs) :
      ShutdownStep numMNs done (done.set t (done.getD t 0 + 1))

/-- Configurations reachable by interleaving the `nT` compute-thread
destructors, from the initial state where no thread has signalled. -/
inductive ShutdownReach (numMNs nT : Nat) : List Nat → Prop
  | init : ShutdownReach numMNs nT (List.replicate nT 0)
  | step {c c' : List Nat} : ShutdownReach numMNs nT c →
      ShutdownStep numMNs c c' → ShutdownReach numMNs nT c'

/-!
### Theorems
-/

/-- Decomposition of the high-bits mask: for any `a`,
`a &&& kIdBitmask` keeps exactly bits 48..63 of `a`. -/
theorem and_kIdBitmask_eq (a : Nat) :
    a &&& kIdBitmask = 2 ^ 48 * (a / 2 ^ 48 % 2 ^ 16) := by
  have hmask : kIdBitmask = 2 ^ 48 * (2 ^ 16 - 1) := by decide
  apply Nat.eq_of_testBit_eq
  intro i
  rw [Nat.testBit_and, hmask, Nat.testBit_mul_pow_two, Nat.testBit_mul_pow_two,
    Nat.testBit_mod_two_pow, ← Nat.shiftRight_eq_div_pow, Nat.testBit_shiftRight,
    Nat.testBit_two_pow_sub_one]
  by_cases h48 : 48 ≤ i
  · by_cases h16 : i - 48 < 16
    · have hi : 48 + (i - 48) = i := by omega
      simp [h48, h16, hi, Bool.and_comm]
    · simp [h48, h16]
  · simp [h48]

/-- The low-bits mask is a mod. -/
theorem and_kAddressBitmask_eq (a : Nat) : a &&& kAddressBitmask = a % 2 ^ 48 := by
  have h1 : kAddressBitmask = 2 ^ 48 - 1 := by
    simp [kAddressBitmask, kAddressBits, Nat.shiftLeft_eq]
  rw [h1, Nat.and_pow_two_sub_one_eq_mod]

/-- Recombining disjoint high and low parts with `|||` is addition. -/
theorem highOrLow_eq_add (h l : Nat) (hl : l < 2 ^ 48) :
    (2 ^ 48 * h) ||| l = 2 ^ 48 * h + l :=
  (Nat.mul_add_lt_is_or hl h).symm

/-- The `id` accessor in div/mod normal form. -/
theorem rdma_ptr_id_eq (p : rdma_ptr) : p.id = p.raw_ / 2 ^ 48 % 2 ^ 16 := by
  rw [rdma_ptr.id, and_kIdBitmask_eq]
  show (2 ^ 48 * (p.raw_ / 2 ^ 48 % 2 ^ 16)) >>> 48 = _
  rw [Nat.shiftRight_eq_div_pow, Nat.mul_div_cancel_left _ (by norm_num : 0 < 2 ^ 48)]

/-- The `address` accessor in div/mod normal form. -/
theorem rdma_ptr_address_eq (p : rdma_ptr) : p.address = p.raw_ % 2 ^ 48 := by
  rw [rdma_ptr.address, and_kAddressBitmask_eq]

/-- The word built by `+=` in additive normal form. -/
theorem rdma_ptr_addAssign_raw (p : rdma_ptr) (sizeofT s : Nat) :
    (p.addAssign sizeofT s).raw_
      = 2 ^ 48 * (p.raw_ / 2 ^ 48 % 2 ^ 16) + (p.raw_ + sizeofT * s) % 2 ^ 48 := by
  show (p.raw_ &&& kIdBitmask) ||| (((p.raw_ + sizeofT * s) % U64) &&& kAddressBitmask) = _
  rw [and_kIdBitmask_eq, and_kAddressBitmask_eq]
  have hd : ((2 : Nat) ^ 48) ∣ 2 ^ 64 := pow_dvd_pow 2 (by norm_num)
  rw [show U64 = 2 ^ 64 from rfl, Nat.mod_mod_of_dvd _ hd]
  exact highOrLow_eq_add _ _ (Nat.mod_lt _ (by norm_num))

/-- The word built by `-=` in additive normal form. -/
theorem rdma_ptr_subAssign_raw (p : rdma_ptr) (sizeofT s : Nat) :
    (p.subAssign sizeofT s).raw_
      = 2 ^ 48 * (p.raw_ / 2 ^ 48 % 2 ^ 16)
        + (p.raw_ + (2 ^ 48 - sizeofT * s % 2 ^ 48)) % 2 ^ 48 := by
  show (p.raw_ &&& kIdBitmask) ||| (u64sub p.raw_ (sizeofT * s) &&& kAddressBitmask) = _
  rw [and_kIdBitmask_eq, and_kAddressBitmask_eq]
  have hd : ((2 : Nat) ^ 48) ∣ 2 ^ 64 := pow_dvd_pow 2 (by norm_num)
  have hsub : u64sub p.raw_ (sizeofT * s) % 2 ^ 48
      = (p.raw_ + (2 ^ 48 - sizeofT * s % 2 ^ 48)) % 2 ^ 48 := by
    rw [u64sub, show U64 = 2 ^ 64 from rfl, Nat.mod_mod_of_dvd _ hd]
    have h64 : (2 : Nat) ^ 64 = 18446744073709551616 := by norm_num
    have h48 : (2 : Nat) ^ 48 = 281474976710656 := by norm_num
    rw [h64, h48]
    omega
  rw [hsub]
  exact highOrLow_eq_add _ _ (Nat.mod_lt _ (by norm_num))

/-- Claim C6: Fat-pointer algebra: for every fat pointer `p` (a `uint64_t`
word), element size `sizeof(T)` and count `k`: `(p + k).id() = p.id()`;
`(p + k).address() = (p.address() + sizeof(T) * k) mod 2^48`;
`p.raw() = (p.id() << 48) | p.address()`; and the corresponding equations
for `-=` (subtraction mod `2^48`), `++` (`+= 1`) and `--` (`-= 1`). -/
theorem rdma_ptr_algebra (p : rdma_ptr) (sizeofT k : Nat) (hp : p.raw_ < U64) :
    (p.add sizeofT k).id = p.id
    ∧ (p.add sizeofT k).address = (p.address + sizeofT * k) % 2 ^ 48
    ∧ p.raw = (p.id <<< 48) ||| p.address
    ∧ (p.sub sizeofT k).id = p.id
    ∧ (p.sub sizeofT k).address
        = (p.address + (2 ^ 48 - sizeofT * k % 2 ^ 48)) % 2 ^ 48
    ∧ (p.inc sizeofT).id = p.id
    ∧ (p.inc sizeofT).address = (p.address + sizeofT) % 2 ^ 48
    ∧ (p.dec sizeofT).id = p.id
    ∧ (p.dec sizeofT).address = (p.address + (2 ^ 48 - sizeofT % 2 ^ 48)) % 2 ^ 48 := by
  have haddr_lt : ∀ a : Nat, a % 2 ^ 48 < 2 ^ 48 := fun a => Nat.mod_lt _ (by norm_num)
  have hid_add : ∀ m, (p.addAssign sizeofT m).id = p.id := by
    intro m
    rw [rdma_ptr_id_eq, rdma_ptr_id_eq, rdma_ptr_addAssign_raw,
      Nat.mul_add_div (by norm_num), Nat.div_eq_of_lt (haddr_lt _), Nat.add_zero,
      Nat.mod_mod_of_dvd _ (dvd_refl _)]
  have haddr_add : ∀ m, (p.addAssign sizeofT m).address
      = (p.address + sizeofT * m) % 2 ^ 48 := by
    intro m
    rw [rdma_ptr_address_eq, rdma_ptr_address_eq, rdma_ptr_addAssign_raw,
      Nat.mul_add_mod, Nat.mod_mod_of_dvd _ (dvd_refl _), Nat.mod_add_mod]
  have hid_sub : ∀ m, (p.subAssign sizeofT m).id = p.id := by
    intro m
    rw [rdma_ptr_id_eq, rdma_ptr_id_eq, rdma_ptr_subAssign_raw,
      Nat.mul_add_div (by norm_num), Nat.div_eq_of_lt (haddr_lt _), Nat.add_zero,
      Nat.mod_mod_of_dvd _ (dvd_refl _)]
  have haddr_sub : ∀ m, (p.subAssign sizeofT m).address
      = (p.address + (2 ^ 48 - sizeofT * m % 2 ^ 48)) % 2 ^ 48 := by
    intro m
    rw [rdma_ptr_address_eq, rdma_ptr_address_eq, rdma_ptr_subAssign_raw,
      Nat.mul_add_mod, Nat.mod_mod_of_dvd _ (dvd_refl _), Nat.mod_add_mod]
  have hraw : p.raw = (p.id <<< 48) ||| p.address := by
    rw [rdma_ptr.raw, rdma_ptr_id_eq, rdma_ptr_address_eq, Nat.shiftLeft_eq]
    have hhi : p.raw_ / 2 ^ 48 % 2 ^ 16 = p.raw_ / 2 ^ 48 := by
      apply Nat.mod_eq_of_lt
      apply Nat.div_lt_of_lt_mul
      calc p.raw_ < U64 := hp
        _ = 2 ^ 48 * 2 ^ 16 := by norm_num [U64]
    rw [hhi, Nat.mul_comm (p.raw_ / 2 ^ 48) (2 ^ 48),
      highOrLow_eq_add _ _ (haddr_lt _)]
    exact (Nat.div_add_mod _ _).symm
  refine ⟨hid_add k, haddr_add k, hraw, hid_sub k, haddr_sub k, hid_add 1, ?_,
    hid_sub 1, ?_⟩
  · have h1 := haddr_add 1
    rwa [Nat.mul_one] at h1
  · have h1 := haddr_sub 1
    rwa [Nat.mul_one] at h1

/-- Witness for `rdma_ptr_algebra` at a concrete fat pointer:
node id 5, address 1000, element size 8, count 3. -/
theorem rdma_ptr_algebra_witness :
    (rdma_ptr.mk (5 * 2 ^ 48 + 1000)).raw_ < U64
    ∧ ((rdma_ptr.mk (5 * 2 ^ 48 + 1000)).add 8 3).id
        = (rdma_ptr.mk (5 * 2 ^ 48 + 1000)).id :=
  ⟨by norm_num [rdma_ptr.mk, U64],
   ((rdma_ptr_algebra (rdma_ptr.mk (5 * 2 ^ 48 + 1000)) 8 3
      (by norm_num [rdma_ptr.mk, U64])).1)⟩

/-- Claim C8: Size classes of the bump allocator: writing
`s = n * sizeof(T) + 16` for the headered size of a request of `n` elements
of type `T`, `compute_size` rounds `s` up to a multiple of 64 when
`s ≤ 1024`, up to a multiple of 1024 when `1024 < s ≤ 8192`, and up to a
multiple of 64 when `s > 8192`; the result is always at least `s`.
(The hypothesis keeps the `uint64_t` additions inside `calculate_slabclass`
from wrapping, which no feasible allocation size can do.) -/
theorem compute_size_size_classes (sizeofT n : Nat)
    (hov : sizeofT * n + HEADER_SIZE + 63 < U64) :
    (sizeofT * n + HEADER_SIZE ≤ 1024 →
      compute_size sizeofT n = roundUpTo 64 (sizeofT * n + HEADER_SIZE))
    ∧ (1024 < sizeofT * n + HEADER_SIZE → sizeofT * n + HEADER_SIZE ≤ 8192 →
      compute_size sizeofT n = roundUpTo 1024 (sizeofT * n + HEADER_SIZE))
    ∧ (8192 < sizeofT * n + HEADER_SIZE →
      compute_size sizeofT n = roundUpTo 64 (sizeofT * n + HEADER_SIZE))
    ∧ sizeofT * n + HEADER_SIZE ≤ compute_size sizeofT n := by
  simp only [compute_size, calculate_slabclass, roundUpTo, U64, HEADER_SIZE,
    ALLOC_SMALL_THRESH, ALLOC_MED_THRESH, Nat.shiftRight_eq_div_pow,
    Nat.shiftLeft_eq] at *
  have h64 : (2 : Nat) ^ 64 = 18446744073709551616 := by norm_num
  have h6 : (2 : Nat) ^ 6 = 64 := by norm_num
  have h10 : (2 : Nat) ^ 10 = 1024 := by norm_num
  rw [h64] at *
  rw [h6, h10]
  refine ⟨fun h1 => ?_, fun h1 h2 => ?_, fun h1 => ?_, ?_⟩ <;> split_ifs <;> omega

/-- Witness for `compute_size_size_classes` at `sizeof(T) = 8`, `n = 5`:
the headered size is 56 and the slab class is 64. -/
theorem compute_size_size_classes_witness :
    8 * 5 + HEADER_SIZE + 63 < U64 ∧ compute_size 8 5 = 64 :=
  ⟨by norm_num [HEADER_SIZE, U64],
   by
    have h := (compute_size_size_classes 8 5 (by norm_num [HEADER_SIZE, U64])).1
      (by norm_num [HEADER_SIZE])
    simpa [roundUpTo, HEADER_SIZE] using h⟩

/-- Claim C2: `try_allocate_global`: whenever the hint check passes and the
remote FAA of `+size` on the chosen segment's `allocated_` field returns an
offset with `offset + size ≤ seg_size`, the iteration remotely writes
`size` into the header's `size_` field at `base + offset`, remotely writes
`0` into the header's second word, and returns `base + offset + 16`;
whenever the FAA returns an offset with `offset + size > seg_size`, the
iteration's whole remote trace is that single FAA (no compensating
decrement) and the loop retries, querying the policy afresh on the next
iteration. -/
theorem try_allocate_global_spec (size seg_size base hintv offset : Nat)
    (hhint : hintv + size ≤ seg_size) :
    (offset + size ≤ seg_size →
      allocStep size seg_size base hintv offset
        = .done [.faa (base + ALLOCATED_OFF) size offset,
                 .write (base + offset + HDR_SIZE_OFF) size,
                 .write (base + offset + HDR_PADDING_OFF) 0]
            (base + offset + HEADER_SIZE))
    ∧ (seg_size < offset + size →
      allocStep size seg_size base hintv offset
        = .retry [.faa (base + ALLOCATED_OFF) size offset])
    ∧ (∀ (policy : Nat → Nat × Nat) (seg_locator : Nat → Nat → Nat)
         (hv fa : Nat → Nat) (fuel i : Nat) (tr : List RemoteEv),
        allocStep size seg_size (seg_locator (policy i).1 (policy i).2)
            (hv i) (fa i) = .retry tr →
        try_allocate_global size seg_size policy seg_locator hv fa (fuel + 1) i
          = (try_allocate_global size seg_size policy seg_locator hv fa
              fuel (i + 1)).map (fun r => (tr ++ r.1, r.2))) := by
  refine ⟨fun hok => ?_, fun hover => ?_, fun policy seg_locator hv fa fuel i tr hstep => ?_⟩
  · rw [allocStep, if_neg (by omega), if_neg (by omega)]
  · rw [allocStep, if_neg (by omega), if_pos (by omega)]
  · rw [try_allocate_global]
    simp only [hstep]

/-- Witness for `try_allocate_global_spec`: segment size 1024, hint 64,
FAA pre-value 64, request 128 bytes at segment base 4096. -/
theorem try_allocate_global_spec_witness :
    64 + 128 ≤ 1024
    ∧ (64 + 128 ≤ 1024 →
      allocStep 128 1024 4096 64 64
        = .done [.faa (4096 + ALLOCATED_OFF) 128 64,
                 .write (4096 + 64 + HDR_SIZE_OFF) 128,
                 .write (4096 + 64 + HDR_PADDING_OFF) 0] (4096 + 64 + HEADER_SIZE)) :=
  ⟨by decide, fun h => (try_allocate_global_spec 128 1024 4096 64 64 (by decide)).1 h⟩

/-- Claim C10: Freed small/medium blocks are reused LIFO from the free list
of their exact size class: after `reclaim(p, s)` with
`c = calculate_slabclass(s) ≤ 8192`, an immediate `try_allocate_local(c)`
returns `p` (and restores the free lists), while the free list of every
other class and the large-block list are untouched, so
`try_allocate_local(c')` for any `c' ≠ c` returns exactly what it would
have returned before the `reclaim`. -/
theorem reclaim_allocate_local_lifo (st : BumpLocal) (p s : Nat)
    (hc : calculate_slabclass s ≤ ALLOC_MED_THRESH) (hp : HEADER_SIZE ≤ p) :
    (try_allocate_local (reclaim st p s) (calculate_slabclass s)).1 = some p
    ∧ (∀ c', c' ≠ calculate_slabclass s →
        (reclaim st p s).freelists c' = st.freelists c')
    ∧ (reclaim st p s).free_blocks = st.free_blocks
    ∧ (∀ c', c' ≠ calculate_slabclass s →
        (try_allocate_local (reclaim st p s) c').1 = (try_allocate_local st c').1) := by
  have hrec : reclaim st p s
      = { st with freelists := fun c =>
            if c = calculate_slabclass s then
              (p - HEADER_SIZE) :: st.freelists (calculate_slabclass s)
            else st.freelists c } := by
    rw [reclaim, if_neg (by omega)]
  refine ⟨?_, ?_, ?_, ?_⟩
  · rw [hrec, try_allocate_local, if_neg (by omega)]
    simp only [if_pos rfl]
    simp [HEADER_SIZE] at hp ⊢
    omega
  · intro c' hne
    rw [hrec]
    simp [hne]
  · rw [hrec]
  · intro c' hne
    rw [hrec]
    by_cases hbig : ALLOC_MED_THRESH < c'
    · rw [try_allocate_local, try_allocate_local, if_pos hbig, if_pos hbig]
      rcases hfe : findErase (fun chunk => decide (c' ≤ chunk.1)) st.free_blocks with
        _ | ⟨chunk, rest⟩ <;> simp [hfe]
    · rw [try_allocate_local, try_allocate_local, if_neg hbig, if_neg hbig]
      rcases hl : st.freelists c' with _ | ⟨a, rest⟩ <;> simp [hne, hl]

/-- Witness for `reclaim_allocate_local_lifo`: reclaim a 100-byte request
(class 128) at address 4160 into an empty allocator state and re-allocate
it. -/
theorem reclaim_allocate_local_lifo_witness :
    calculate_slabclass 100 ≤ ALLOC_MED_THRESH
    ∧ HEADER_SIZE ≤ 4160
    ∧ (try_allocate_local (reclaim ⟨fun _ => [], []⟩ 4160 100)
        (calculate_slabclass 100)).1 = some 4160 :=
  ⟨by decide, by decide,
   (reclaim_allocate_local_lifo ⟨fun _ => [], []⟩ 4160 100
      (by decide) (by decide)).1⟩

/-- Cyclic offsets below the modulus are determined by their residue. -/
theorem add_mod_inj {N s j k : Nat} (hj : j < N) (hk : k < N)
    (h : (s + j) % N = (s + k) % N) : j = k := by
  have h1 : j % N = k % N := Nat.ModEq.add_left_cancel' s h
  rwa [Nat.mod_eq_of_lt hj, Nat.mod_eq_of_lt hk] at h1

/-- Every index of the ring is reached by some cyclic offset from `s`. -/
theorem exists_cyclic_offset {N s i : Nat} (hs : s < N) (hi : i < N) :
    ∃ j, j < N ∧ (s + j) % N = i := by
  rcases le_or_lt s i with h | h
  · exact ⟨i - s, by omega, by rw [Nat.add_sub_cancel' h]; exact Nat.mod_eq_of_lt hi⟩
  · refine ⟨i + N - s, by omega, ?_⟩
    have he : s + (i + N - s) = i + N := by omega
    rw [he, Nat.add_mod_right]
    exact Nat.mod_eq_of_lt hi

/-- Reading back the slot just written. -/
theorem slotAt_set_self {a : List SlotState} {i : Nat} (v : SlotState)
    (h : i < a.length) : slotAt (a.set i v) i = v := by
  simp [slotAt, List.getElem?_set_self h]

/-- Writing one slot leaves the others unchanged. -/
theorem slotAt_set_ne {a : List SlotState} {i j : Nat} (v : SlotState)
    (h : i ≠ j) : slotAt (a.set i v) j = slotAt a j := by
  simp [slotAt, List.getElem?_set_ne h]

/-- Out-of-range reads default to `AVAILABLE`. -/
theorem slotAt_ge {a : List SlotState} {i : Nat} (h : a.length ≤ i) :
    slotAt a i = .AVAILABLE := by
  simp [slotAt, List.getElem?_eq_none h]

/-- The full ring-counter invariant: cyclic-range shape for some length,
and the sweep of `release` never leaves the slot at `counter_start` in the
`TO_BE_FREED` state. -/
def RingInv (s : RingCounter) : Prop :=
  (∃ len, RingShape s len)
  ∧ slotAt s.assignments s.counter_start ≠ .TO_BE_FREED

/-- Ring-counter `acquire` preserves the invariant (and the capacity). -/
theorem rc_acquire_inv {s : RingCounter} (hinv : RingInv s) :
    RingInv (rc_acquire s).2
    ∧ (rc_acquire s).2.assignments.length = s.assignments.length := by
  obtain ⟨⟨len, hstart_lt, hlen, hend, hbusy, havail⟩, htbf⟩ := hinv
  by_cases havailEnd : slotAt s.assignments s.counter_end = .AVAILABLE
  case neg =>
    have heq : (rc_acquire s).2 = s := by rw [rc_acquire, if_neg havailEnd]
    rw [heq]
    exact ⟨⟨⟨len, hstart_lt, hlen, hend, hbusy, havail⟩, htbf⟩, rfl⟩
  case pos =>
    have heq : (rc_acquire s).2
        = { s with
              assignments := s.assignments.set s.counter_end .IN_USE,
              counter_end := (s.counter_end + 1) % s.assignments.length } := by
      rw [rc_acquire, if_pos havailEnd]
    rw [heq]
    have hN : 0 < s.assignments.length := by omega
    have hstart_mod : (s.counter_start + 0) % s.assignments.length = s.counter_start := by
      rw [Nat.add_zero]; exact Nat.mod_eq_of_lt hstart_lt
    have hlenN : len < s.assignments.length := by
      rcases Nat.lt_or_ge len s.assignments.length with h | h
      · exact h
      · exfalso
        have hlene : len = s.assignments.length := le_antisymm hlen h
        have hes : s.counter_end = s.counter_start := by
          rw [hend, hlene, Nat.add_mod_right]
          exact Nat.mod_eq_of_lt hstart_lt
        have h0 : 0 < len := by omega
        have := hbusy 0 h0
        rw [hstart_mod, ← hes] at this
        exact this havailEnd
    have hend_lt : s.counter_end < s.assignments.length := by
      rw [hend]; exact Nat.mod_lt _ hN
    have hend_ne : ∀ j, j < s.assignments.length → j ≠ len →
        s.counter_end ≠ (s.counter_start + j) % s.assignments.length := by
      intro j hj hne heq
      rw [hend] at heq
      exact hne (add_mod_inj hlenN hj heq).symm
    refine ⟨⟨⟨len + 1, ?_, ?_, ?_, ?_, ?_⟩, ?_⟩, by simp⟩
    · simpa using hstart_lt
    · simp only [List.length_set]
      omega
    · show (s.counter_end + 1) % s.assignments.length
        = (s.counter_start + (len + 1)) % (s.assignments.set s.counter_end .IN_USE).length
      rw [List.length_set, hend, Nat.mod_add_mod, Nat.add_assoc]
    · intro j hj
      show slotAt (s.assignments.set s.counter_end .IN_USE)
          ((s.counter_start + j) % (s.assignments.set s.counter_end .IN_USE).length) ≠ _
      rw [List.length_set]
      rcases Nat.lt_or_ge j len with hjl | hjl
      · rw [slotAt_set_ne _ (hend_ne j (by omega) (by omega))]
        exact hbusy j hjl
      · have hje : j = len := by omega
        subst hje
        rw [← hend, slotAt_set_self _ hend_lt]
        simp
    · intro j hj1 hj2
      show slotAt (s.assignments.set s.counter_end .IN_USE)
          ((s.counter_start + j) % (s.assignments.set s.counter_end .IN_USE).length) = _
      rw [List.length_set]
      rw [List.length_set] at hj2
      rw [slotAt_set_ne _ (hend_ne j hj2 (by omega))]
      exact havail j (by omega) hj2
    · show slotAt (s.assignments.set s.counter_end .IN_USE) s.counter_start ≠ _
      rcases Nat.eq_zero_or_pos len with h0 | h0
      · have hes : s.counter_end = s.counter_start := by
          rw [hend, h0, Nat.add_zero]
          exact Nat.mod_eq_of_lt hstart_lt
        rw [show s.counter_start = s.counter_end from hes.symm,
          slotAt_set_self _ hend_lt]
        simp
      · have hne : s.counter_end ≠ s.counter_start := by
          have := hend_ne 0 hN (by omega)
          rwa [hstart_mod] at this
        rw [slotAt_set_ne _ hne]
        exact htbf

/-- Marking an `IN_USE` slot `TO_BE_FREED` preserves the cyclic-range
shape (with the same busy length). -/
theorem rc_setTBF_shape {s : RingCounter} {len i : Nat}
    (hsh : RingShape s len) (hin : slotAt s.assignments i = .IN_USE) :
    RingShape { s with assignments := s.assignments.set i .TO_BE_FREED } len := by
  obtain ⟨hstart_lt, hlen, hend, hbusy, havail⟩ := hsh
  have hi : i < s.assignments.length := by
    by_contra hge
    rw [slotAt_ge (by omega)] at hin
    exact SlotState.noConfusion hin
  obtain ⟨ji, hji, hjieq⟩ := exists_cyclic_offset hstart_lt hi
  have hjilen : ji < len := by
    rcases Nat.lt_or_ge ji len with h | h
    · exact h
    · exfalso
      have := havail ji h hji
      rw [hjieq, hin] at this
      exact SlotState.noConfusion this
  refine ⟨by simpa using hstart_lt, by simpa using hlen, by simpa using hend, ?_, ?_⟩
  · intro j hj
    show slotAt (s.assignments.set i .TO_BE_FREED)
        ((s.counter_start + j) % (s.assignments.set i .TO_BE_FREED).length) ≠ _
    rw [List.length_set]
    by_cases heq : i = (s.counter_start + j) % s.assignments.length
    · rw [← heq, slotAt_set_self _ hi]
      simp
    · rw [slotAt_set_ne _ heq]
      exact hbusy j hj
  · intro j hj1 hj2
    show slotAt (s.assignments.set i .TO_BE_FREED)
        ((s.counter_start + j) % (s.assignments.set i .TO_BE_FREED).length) = _
    rw [List.length_set]
    rw [show ({ s with assignments := s.assignments.set i .TO_BE_FREED } :
        RingCounter).assignments.length = s.assignments.length by simp] at hj2
    have hne : i ≠ (s.counter_start + j) % s.assignments.length := by
      intro heq
      rw [← hjieq] at heq
      have := add_mod_inj hji hj2 heq
      omega
    rw [slotAt_set_ne _ hne]
    exact havail j hj1 hj2

/-- The sweep of `release`, run with at least `len` fuel from any state in
cyclic-range shape, reestablishes the full invariant and touches neither
the capacity nor `counter_end`. -/
theorem rc_sweep_inv : ∀ (fuel : Nat) (s : RingCounter) (len : Nat),
    RingShape s len → len ≤ fuel →
    RingInv (rc_sweep fuel s)
    ∧ (rc_sweep fuel s).assignments.length = s.assignments.length
    ∧ (rc_sweep fuel s).counter_end = s.counter_end := by
  intro fuel
  induction fuel with
  | zero =>
    intro s len hsh hle
    obtain ⟨hstart_lt, hlen, hend, hbusy, havail⟩ := hsh
    have hlen0 : len = 0 := by omega
    have hstart_av : slotAt s.assignments s.counter_start = .AVAILABLE := by
      have := havail 0 (by omega) (by omega)
      rwa [Nat.add_zero, Nat.mod_eq_of_lt hstart_lt] at this
    refine ⟨⟨⟨len, hstart_lt, hlen, hend, hbusy, havail⟩, ?_⟩, rfl, rfl⟩
    show slotAt s.assignments s.counter_start ≠ _
    rw [hstart_av]
    simp
  | succ fuel ih =>
    intro s len hsh hle
    rw [rc_sweep]
    split
    case isFalse h =>
      exact ⟨⟨⟨len, hsh⟩, h⟩, rfl, rfl⟩
    case isTrue htbf =>
      obtain ⟨hstart_lt, hlen, hend, hbusy, havail⟩ := hsh
      have hN : 0 < s.assignments.length := by omega
      have hstart_mod : (s.counter_start + 0) % s.assignments.length
          = s.counter_start := by
        rw [Nat.add_zero]; exact Nat.mod_eq_of_lt hstart_lt
      have hlen0 : 0 < len := by
        by_contra h0
        have := havail 0 (by omega) hN
        rw [hstart_mod, htbf] at this
        exact SlotState.noConfusion this
      have hstep : RingShape
          { s with
              assignments := s.assignments.set s.counter_start .AVAILABLE,
              counter_start := (s.counter_start + 1) % s.assignments.length }
          (len - 1) := by
        refine ⟨?_, ?_, ?_, ?_, ?_⟩
        · show (s.counter_start + 1) % s.assignments.length < _
          simpa using Nat.mod_lt _ hN
        · simpa using by omega
        · show s.counter_end = ((s.counter_start + 1) % s.assignments.length
              + (len - 1)) % (s.assignments.set s.counter_start .AVAILABLE).length
          rw [List.length_set, Nat.mod_add_mod,
            show s.counter_start + 1 + (len - 1) = s.counter_start + len by omega]
          exact hend
        · intro j hj
          show slotAt (s.assignments.set s.counter_start .AVAILABLE)
              (((s.counter_start + 1) % s.assignments.length + j)
                % (s.assignments.set s.counter_start .AVAILABLE).length) ≠ _
          rw [List.length_set, Nat.mod_add_mod,
            show s.counter_start + 1 + j = s.counter_start + (j + 1) by omega]
          have hne : s.counter_start ≠ (s.counter_start + (j + 1)) % s.assignments.length := by
            intro heq
            have heq2 : (s.counter_start + 0) % s.assignments.length
                = (s.counter_start + (j + 1)) % s.assignments.length := by
              rw [hstart_mod]; exact heq
            have := add_mod_inj hN (by omega) heq2
            omega
          rw [slotAt_set_ne _ hne]
          exact hbusy (j + 1) (by omega)
        · intro j hj1 hj2
          show slotAt (s.assignments.set s.counter_start .AVAILABLE)
              (((s.counter_start + 1) % s.assignments.length + j)
                % (s.assignments.set s.counter_start .AVAILABLE).length) = _
          rw [List.length_set, Nat.mod_add_mod,
            show s.counter_start + 1 + j = s.counter_start + (j + 1) by omega]
          rw [List.length_set] at hj2
          rcases Nat.lt_or_ge (j + 1) s.assignments.length with hj1N | hj1N
          · have hne : s.counter_start
                ≠ (s.counter_start + (j + 1)) % s.assignments.length := by
              intro heq
              have heq2 : (s.counter_start + 0) % s.assignments.length
                  = (s.counter_start + (j + 1)) % s.assignments.length := by
                rw [hstart_mod]; exact heq
              have := add_mod_inj hN hj1N heq2
              omega
            rw [slotAt_set_ne _ hne]
            exact havail (j + 1) (by omega) hj1N
          · have hj1e : j + 1 = s.assignments.length := by omega
            rw [hj1e, Nat.add_mod_right, Nat.mod_eq_of_lt hstart_lt]
            exact slotAt_set_self _ hstart_lt
      obtain ⟨hx1, hx2, hx3⟩ := ih _ (len - 1) hstep (by omega)
      refine ⟨hx1, ?_, hx3⟩
      rw [hx2]
      simp

/-- Ring-counter `release` preserves the invariant (and the capacity and `counter_end`). -/
theorem rc_release_inv {s s' : RingCounter} {i : Nat} (hinv : RingInv s)
    (h : rc_release s i = some s') :
    RingInv s'
    ∧ s'.assignments.length = s.assignments.length
    ∧ s'.counter_end = s.counter_end := by
  obtain ⟨⟨len, hsh⟩, _⟩ := hinv
  rw [rc_release] at h
  split at h
  case isFalse => exact Option.noConfusion h
  case isTrue hin =>
    simp only [Option.some.injEq] at h
    subst h
    have hstep := rc_setTBF_shape hsh hin
    have hfuel : len ≤ s.assignments.length := hsh.2.1
    obtain ⟨hx1, hx2, hx3⟩ := rc_sweep_inv s.assignments.length _ len hstep hfuel
    exact ⟨hx1, by rw [hx2]; simp, hx3⟩

/-- Any run from any invariant state stays in the invariant. -/
theorem rc_run_inv : ∀ (ops : List RingOp) (s s' : RingCounter),
    RingInv s → rc_run ops s = some s' →
    RingInv s' ∧ s'.assignments.length = s.assignments.length := by
  intro ops
  induction ops with
  | nil =>
    intro s s' hinv h
    rw [rc_run] at h
    simp only [Option.some.injEq] at h
    subst h
    exact ⟨hinv, rfl⟩
  | cons op ops ih =>
    intro s s' hinv h
    cases op with
    | acq =>
      rw [rc_run] at h
      obtain ⟨hinv2, hlen2⟩ := rc_acquire_inv hinv
      obtain ⟨hinv3, hlen3⟩ := ih _ _ hinv2 h
      exact ⟨hinv3, by rw [hlen3, hlen2]⟩
    | rel i =>
      rw [rc_run] at h
      rcases hrel : rc_release s i with _ | s₂ <;> rw [hrel] at h
      · exact Option.noConfusion h
      · obtain ⟨hinv2, hlen2, _⟩ := rc_release_inv hinv hrel
        obtain ⟨hinv3, hlen3⟩ := ih _ _ hinv2 h
        exact ⟨hinv3, by rw [hlen3, hlen2]⟩

/-- The fresh ring counter satisfies the invariant. -/
theorem rc_init_inv (N : Nat) (hN : 0 < N) : RingInv (rc_init N) := by
  refine ⟨⟨0, ?_, ?_, ?_, ?_, ?_⟩, ?_⟩
  · simpa [rc_init] using hN
  · simp [rc_init]
  · simp [rc_init]
  · intro j hj; omega
  · intro j hj1 hj2
    simp only [rc_init, List.length_replicate] at hj2 ⊢
    simp [slotAt, List.getElem?_replicate, Nat.mod_lt _ hN]
  · simp [rc_init, slotAt, List.getElem?_replicate, hN]

/-- Claim C4: `ring_counter_t` is a FIFO cyclic-range allocator: in every
state reachable by any interleaving of `acquire`/`release` calls on a ring
of `N` slots, the busy slots are exactly the contiguous cyclic range
`[counter_start, counter_end)` modulo `N` and the slot at `counter_start`
is never left `TO_BE_FREED` (releases reclaim a FIFO prefix and the sweep
is maximal); `acquire` returns the old `counter_end` and advances it mod
`N` exactly when that slot is `AVAILABLE` (marking it `IN_USE`) and returns
`nullopt` otherwise; `release` of a slot that is not `IN_USE` is a fatal
double-free assertion. -/
theorem ring_counter_cyclic_range (N : Nat) (hN : 0 < N) :
    (∀ ops s', rc_run ops (rc_init N) = some s' →
      s'.assignments.length = N
      ∧ (∃ len, RingShape s' len)
      ∧ slotAt s'.assignments s'.counter_start ≠ .TO_BE_FREED)
    ∧ (∀ s : RingCounter, slotAt s.assignments s.counter_end = .AVAILABLE →
        rc_acquire s
          = (some s.counter_end,
             { s with
                assignments := s.assignments.set s.counter_end .IN_USE,
                counter_end := (s.counter_end + 1) % s.assignments.length }))
    ∧ (∀ s : RingCounter, slotAt s.assignments s.counter_end ≠ .AVAILABLE →
        rc_acquire s = (none, s))
    ∧ (∀ (s : RingCounter) (i : Nat),
        rc_release s i = none ↔ slotAt s.assignments i ≠ .IN_USE) := by
  refine ⟨?_, ?_, ?_, ?_⟩
  · intro ops s' h
    obtain ⟨⟨hsh, htbf⟩, hlen⟩ := rc_run_inv ops _ s' (rc_init_inv N hN) h
    refine ⟨by simpa [rc_init] using hlen, hsh, htbf⟩
  · intro s h
    rw [rc_acquire, if_pos h]
  · intro s h
    rw [rc_acquire, if_neg h]
  · intro s i
    rw [rc_release]
    constructor
    · intro h hin
      rw [if_pos hin] at h
      exact Option.noConfusion h
    · intro hin
      rw [if_neg hin]

/-- Witness for `ring_counter_cyclic_range`: on a ring of 3 slots, two
acquires followed by a release of slot 0 reach the state with
`counter_start = 1`, `counter_end = 2` and exactly slot 1 busy. -/
theorem ring_counter_cyclic_range_witness :
    0 < 3
    ∧ rc_run [RingOp.acq, RingOp.acq, RingOp.rel 0] (rc_init 3)
        = some ⟨1, 2, [.AVAILABLE, .IN_USE, .AVAILABLE]⟩
    ∧ ((⟨1, 2, [.AVAILABLE, .IN_USE, .AVAILABLE]⟩ : RingCounter).assignments.length = 3
      ∧ (∃ len, RingShape ⟨1, 2, [.AVAILABLE, .IN_USE, .AVAILABLE]⟩ len)
      ∧ slotAt [SlotState.AVAILABLE, .IN_USE, .AVAILABLE] 1 ≠ .TO_BE_FREED) :=
  ⟨by decide, by decide,
   (ring_counter_cyclic_range 3 (by decide)).1
     [RingOp.acq, RingOp.acq, RingOp.rel 0]
     ⟨1, 2, [.AVAILABLE, .IN_USE, .AVAILABLE]⟩ (by decide)⟩

/-- A successful spin consists of some reads that do not see the new sense
followed by one that does. -/
theorem barrierSpin_spec (new_sense : Nat) :
    ∀ reads obs : List Nat, barrierSpin new_sense reads = some obs →
      ∃ pre last, obs = pre ++ [last]
        ∧ (∀ r ∈ pre, r &&& 1 ≠ new_sense)
        ∧ last &&& 1 = new_sense := by
  intro reads
  induction reads with
  | nil => intro obs h; simp [barrierSpin] at h
  | cons r rs ih =>
    intro obs h
    rw [barrierSpin] at h
    split at h
    · rename_i hne
      rcases hsp : barrierSpin new_sense rs with _ | l <;> rw [hsp] at h
      · simp at h
      · simp only [Option.map_some', Option.some.injEq] at h
        obtain ⟨pre, last, hl, hpre, hlast⟩ := ih l hsp
        refine ⟨r :: pre, last, ?_, ?_, hlast⟩
        · rw [← h, hl]; rfl
        · intro x hx
          rcases List.mem_cons.mp hx with hx | hx
          · subst hx; exact hne
          · exact hpre x hx
    · rename_i heq
      push_neg at heq
      refine ⟨[], r, ?_, by simp, heq⟩
      simp only [Option.some.injEq] at h
      rw [← h]; rfl

/-- Claim C1: `arrive_control_barrier(n)` with `n ≥ 1` performs exactly one
FAA, of `+2`, on the barrier word, as its first remote operation; letting
`was` be the pre-FAA value, if `was >> 1 = n - 1` the whole trace is that
FAA followed by a write of the new sense `1 - (was & 1)` to the barrier
word; otherwise the call returns (trace defined) only after a read of the
barrier word observes a low bit equal to `1 - (was & 1)`, all earlier reads
having observed the opposite sense. -/
theorem arrive_control_barrier_spec (n barrier was : Nat) (reads : List Nat)
    (tr : List RemoteEv) (b : Bool) (hn : 1 ≤ n)
    (h : arrive_control_barrier n barrier was reads = some (tr, b)) :
    (tr.countP (fun e => match e with | .faa _ _ _ => true | _ => false) = 1
      ∧ tr.head? = some (.faa barrier 2 was))
    ∧ (was >>> 1 = n - 1 →
        tr = [.faa barrier 2 was, .write barrier (1 - (was &&& 1))])
    ∧ (was >>> 1 ≠ n - 1 →
        ∃ pre last,
          tr = .faa barrier 2 was
                :: (pre ++ [last]).map (fun r => .read barrier r)
          ∧ (∀ r ∈ pre, r &&& 1 ≠ 1 - (was &&& 1))
          ∧ last &&& 1 = 1 - (was &&& 1)) := by
  rw [arrive_control_barrier] at h
  by_cases hc : was >>> 1 = n - 1
  · rw [if_pos hc] at h
    simp only [Option.some.injEq, Prod.mk.injEq] at h
    refine ⟨?_, fun _ => h.1.symm, fun hne => absurd hc hne⟩
    rw [← h.1]
    exact ⟨by rfl, by rfl⟩
  · rw [if_neg hc] at h
    rcases hsp : barrierSpin (1 - (was &&& 1)) reads with _ | l <;> rw [hsp] at h
    · simp at h
    · simp only [Option.map_some', Option.some.injEq, Prod.mk.injEq] at h
      obtain ⟨pre, last, hl, hpre, hlast⟩ := barrierSpin_spec _ reads l hsp
      refine ⟨?_, fun hcc => absurd hcc hc, fun _ => ⟨pre, last, ?_, hpre, hlast⟩⟩
      · rw [← h.1]
        refine ⟨?_, rfl⟩
        rw [List.countP_cons, List.countP_map,
          List.countP_eq_zero.mpr (by intro x hx; simp [Function.comp])]
        simp
      · rw [← h.1, hl]

/-- Witness for `arrive_control_barrier_spec`: the last of 2 threads
arrives with pre-FAA value 2 (sense 0, count 1). -/
theorem arrive_control_barrier_spec_witness :
    1 ≤ 2
    ∧ arrive_control_barrier 2 24 2 []
        = some ([.faa 24 2 2, .write 24 1], true)
    ∧ ([RemoteEv.faa 24 2 2, RemoteEv.write 24 1].countP
          (fun e => match e with | .faa _ _ _ => true | _ => false) = 1
        ∧ [RemoteEv.faa 24 2 2, RemoteEv.write 24 1].head?
            = some (.faa 24 2 2)) :=
  ⟨by decide, by decide,
   (arrive_control_barrier_spec 2 24 2 []
      [RemoteEv.faa 24 2 2, RemoteEv.write 24 1] true
      (by decide) (by decide)).1⟩

/-- Claim C9: Both branches of `arrive_control_barrier` return `true`: the
boolean result never distinguishes the last arrival from the others
(despite the doc comment `@return True if this thread was the last to
arrive, false otherwise`). -/
theorem arrive_control_barrier_always_true (n barrier was : Nat)
    (reads : List Nat) (tr : List RemoteEv) (b : Bool)
    (h : arrive_control_barrier n barrier was reads = some (tr, b)) :
    b = true := by
  rw [arrive_control_barrier] at h
  split at h
  · simp only [Option.some.injEq, Prod.mk.injEq] at h
    exact h.2.symm
  · rcases hsp : barrierSpin (1 - (was &&& 1)) reads with _ | l <;> rw [hsp] at h
    · simp at h
    · simp only [Option.map_some', Option.some.injEq, Prod.mk.injEq] at h
      exact h.2.symm

/-- Witness for `arrive_control_barrier_always_true`: a non-last arrival
(`was = 0`, 3 threads expected) whose first spin read already observes the
new sense; the result is still `true`. -/
theorem arrive_control_barrier_always_true_witness :
    arrive_control_barrier 3 24 0 [1]
      = some ([.faa 24 2 0, .read 24 1], true)
    ∧ true = true :=
  ⟨by decide,
   arrive_control_barrier_always_true 3 24 0 [1] [.faa 24 2 0, .read 24 1]
     true (by decide)⟩

/-- Claim C3, counterexample: When the most recent group of the coroutine
slot exists, is not yet posted, but already holds `cn_wrs_per_seq` work
requests, `find_seq_idx` does *not* allocate a fresh group: the
`REMUS_ASSERT(send_wrs.size() < CN_WRS_PER_SEQ)` fails fatally.  Concrete
input: `CN_OPS_PER_THREAD = 2`, `CN_WRS_PER_SEQ = 1`, the unposted group 0
holding 1 WR, ring cursor `end = 1` (so `last_seq_idx = 0`), with a map
slot and a ring slot still free for a fresh group. -/
theorem find_seq_idx_full_group_counterexample :
    find_seq_idx 2 1 ⟨[(0, ⟨false, 1⟩)], ⟨0, 1, [.IN_USE, .AVAILABLE]⟩⟩
      = .fatal := by decide

/-- Claim C3, amended: Sequenced operations are appended to the most recent
not-yet-posted group of the coroutine slot when it exists and holds fewer
than `cn_wrs_per_seq` work requests; if that group is full the call is a
fatal assertion failure (not a fresh allocation).  A fresh group is
allocated only when no group is at the most recent index or that group was
already posted, subject to the `cn_ops_per_thread` limit on the group map
and on the ring of sequenced-completion slots (each exhausted limit is
fatal). -/
theorem find_seq_idx_spec (capOps capWrs : Nat) (s : SeqState)
    (_hring : s.ring.assignments.length = capOps) :
    (∀ g, glookup s.groups ((s.ring.counter_end + capOps - 1) % capOps) = some g →
      g.posted = false →
      (g.wrCount < capWrs →
        find_seq_idx capOps capWrs s
          = .reuse ((s.ring.counter_end + capOps - 1) % capOps))
      ∧ (capWrs ≤ g.wrCount → find_seq_idx capOps capWrs s = .fatal))
    ∧ ((s.groups = []
        ∨ ∀ g, glookup s.groups ((s.ring.counter_end + capOps - 1) % capOps)
            = some g → g.posted = true) →
      (s.groups.length < capOps →
        slotAt s.ring.assignments s.ring.counter_end = .AVAILABLE →
        find_seq_idx capOps capWrs s
          = .fresh s.ring.counter_end
              ⟨(s.ring.counter_end, ⟨false, 0⟩) :: s.groups, (rc_acquire s.ring).2⟩)
      ∧ (capOps ≤ s.groups.length →
        find_seq_idx capOps capWrs s = .fatal)) := by
  constructor
  · intro g hg hposted
    have hne : s.groups ≠ [] := by
      intro he
      rw [he] at hg
      exact Option.noConfusion hg
    refine ⟨fun hlt => ?_, fun hge => ?_⟩
    · simp [find_seq_idx, hne, hg, hposted, hlt]
    · simp [find_seq_idx, hne, hg, hposted, show ¬ g.wrCount < capWrs by omega]
  · intro hfresh
    have hfr : s.groups.length < capOps →
        slotAt s.ring.assignments s.ring.counter_end = .AVAILABLE →
        (if s.groups.length < capOps then
          match rc_acquire s.ring with
          | (some idx, ring') =>
            FindSeqResult.fresh idx ⟨(idx, ⟨false, 0⟩) :: s.groups, ring'⟩
          | (none, _) => FindSeqResult.fatal
        else FindSeqResult.fatal)
          = FindSeqResult.fresh s.ring.counter_end
              ⟨(s.ring.counter_end, ⟨false, 0⟩) :: s.groups, (rc_acquire s.ring).2⟩ := by
      intro hcap hav
      have h1 : (rc_acquire s.ring).1 = some s.ring.counter_end := by
        rw [rc_acquire, if_pos hav]
      have hpair : rc_acquire s.ring
          = (some s.ring.counter_end, (rc_acquire s.ring).2) := by
        calc rc_acquire s.ring
            = ((rc_acquire s.ring).1, (rc_acquire s.ring).2) := rfl
          _ = (some s.ring.counter_end, (rc_acquire s.ring).2) := by rw [h1]
      rw [if_pos hcap, hpair]
    have hft : capOps ≤ s.groups.length →
        (if s.groups.length < capOps then
          match rc_acquire s.ring with
          | (some idx, ring') =>
            FindSeqResult.fresh idx ⟨(idx, ⟨false, 0⟩) :: s.groups, ring'⟩
          | (none, _) => FindSeqResult.fatal
        else FindSeqResult.fatal) = FindSeqResult.fatal := by
      intro hcap
      rw [if_neg (by omega)]
    have hsome : ∀ g : SeqGroup, g.posted = true →
        (if g.posted = false then
          if g.wrCount < capWrs then
            FindSeqResult.reuse ((s.ring.counter_end + capOps - 1) % capOps)
          else FindSeqResult.fatal
        else
          if s.groups.length < capOps then
            match rc_acquire s.ring with
            | (some idx, ring') =>
              FindSeqResult.fresh idx ⟨(idx, ⟨false, 0⟩) :: s.groups, ring'⟩
            | (none, _) => FindSeqResult.fatal
          else FindSeqResult.fatal)
        = (if s.groups.length < capOps then
            match rc_acquire s.ring with
            | (some idx, ring') =>
              FindSeqResult.fresh idx ⟨(idx, ⟨false, 0⟩) :: s.groups, ring'⟩
            | (none, _) => FindSeqResult.fatal
          else FindSeqResult.fatal) := by
      intro g hgp
      rw [hgp]
      simp
    refine ⟨fun hcap hav => ?_, fun hcap => ?_⟩
    · rcases hfresh with he | hposted
      · rw [find_seq_idx, if_neg (by simp [he])]
        exact hfr hcap hav
      · by_cases hne : s.groups = []
        · rw [find_seq_idx, if_neg (by simp [hne])]
          exact hfr hcap hav
        · rw [find_seq_idx, if_pos hne]
          rcases hlk : glookup s.groups ((s.ring.counter_end + capOps - 1) % capOps)
            with _ | g
          · exact hfr hcap hav
          · exact (hsome g (hposted g hlk)).trans (hfr hcap hav)
    · rcases hfresh with he | hposted
      · rw [find_seq_idx, if_neg (by simp [he])]
        exact hft hcap
      · by_cases hne : s.groups = []
        · rw [find_seq_idx, if_neg (by simp [hne])]
          exact hft hcap
        · rw [find_seq_idx, if_pos hne]
          rcases hlk : glookup s.groups ((s.ring.counter_end + capOps - 1) % capOps)
            with _ | g
          · exact hft hcap
          · exact (hsome g (hposted g hlk)).trans (hft hcap)

/-- Claim C5: `ring_buf_t` violates its non-overlap contract: on the buffer
`[0, 8)` with alignment 1, the call sequence `acquire 6; acquire 2;
release 0; acquire 4; acquire 2` succeeds and reaches the exactly-full
state (`start = end = 6`, the whole buffer covered by chunks, among them
the in-use chunk `[6, 8)`).  The next `acquire 1` then succeeds — case 1
applies because `start ≤ end` cannot distinguish full from empty — and
returns address 6: a byte range inside the still-in-use chunk `[6, 8)`,
whose map entry it silently overwrites.  This contradicts the code's own
intent (its case analysis, and its release-time integrity assertion)
and the documented invariant that no two in-use chunks overlap. -/
theorem rb_acquire_overlap_code_bug :
    rb_acquire ⟨0, 8, 0, 0, []⟩ 6 1
      = (some 0, ⟨0, 8, 0, 6, [(0, ⟨6, true⟩)]⟩)
    ∧ rb_acquire ⟨0, 8, 0, 6, [(0, ⟨6, true⟩)]⟩ 2 1
      = (some 6, ⟨0, 8, 0, 8, [(0, ⟨6, true⟩), (6, ⟨8, true⟩)]⟩)
    ∧ rb_release ⟨0, 8, 0, 8, [(0, ⟨6, true⟩), (6, ⟨8, true⟩)]⟩ 0
      = some ⟨0, 8, 6, 8, [(6, ⟨8, true⟩)]⟩
    ∧ rb_acquire ⟨0, 8, 6, 8, [(6, ⟨8, true⟩)]⟩ 4 1
      = (some 0, ⟨0, 8, 6, 4, [(6, ⟨8, true⟩), (8, ⟨0, false⟩), (0, ⟨4, true⟩)]⟩)
    ∧ rb_acquire ⟨0, 8, 6, 4, [(6, ⟨8, true⟩), (8, ⟨0, false⟩), (0, ⟨4, true⟩)]⟩ 2 1
      = (some 4, ⟨0, 8, 6, 6,
          [(6, ⟨8, true⟩), (8, ⟨0, false⟩), (0, ⟨4, true⟩), (4, ⟨6, true⟩)]⟩)
    ∧ blookup [(6, ⟨8, true⟩), (8, ⟨0, false⟩), (0, ⟨4, true⟩), (4, ⟨6, true⟩)] 6
      = some ⟨8, true⟩
    ∧ (rb_acquire ⟨0, 8, 6, 6,
          [(6, ⟨8, true⟩), (8, ⟨0, false⟩), (0, ⟨4, true⟩), (4, ⟨6, true⟩)]⟩ 1 1).1
      = some 6
    ∧ 6 + 1 ≤ 8 := by decide

/-- A predicate that holds exactly once below `n` is counted once on
`List.range n`. -/
theorem countP_range_eq_one (p : Nat → Bool) (n m : Nat) (hm : m < n)
    (hp : ∀ i, i < n → (p i = true ↔ i = m)) : (List.range n).countP p = 1 := by
  induction n with
  | zero => omega
  | succ n ih =>
    rw [List.range_succ, List.countP_append]
    rcases Nat.lt_or_ge m n with h | h
    · rw [ih h (fun i hi => hp i (by omega))]
      have hn : p n = false := by
        rcases hpn : p n with _ | _
        · rfl
        · exfalso
          have := (hp n (by omega)).mp hpn
          omega
      simp [List.countP_cons, hn]
    · have hm' : m = n := by omega
      subst hm'
      have h0 : (List.range m).countP p = 0 := by
        rw [List.countP_eq_zero]
        intro a ha
        rw [List.mem_range] at ha
        intro hpa
        have := (hp a (by omega)).mp hpa
        omega
      have h1 : p m = true := (hp m (by omega)).mpr rfl
      simp [h0, List.countP_cons, h1]

/-- Reachable shutdown configurations have one entry per compute thread. -/
theorem shutdown_reach_length {numMNs nT : Nat} {done : List Nat}
    (h : ShutdownReach numMNs nT done) : done.length = nT := by
  induction h with
  | init => exact List.length_replicate _ _
  | step _ hstep ih =>
    cases hstep with
    | faa t ht hlt => simpa using ih

/-- Claim C7, counterexample: With 2 MemoryNodes and 1 compute thread, the
configuration in which the thread's destructor has performed only its
first FAA (on MN 0) is reachable; there MN 0's spin condition
`control_flag_ == total_threads` already holds (`flag = 1 = nT`), so MN 0's
destructor may return, yet the thread's destructor is not finished (it has
not signalled MN 1) — the thread has not been destructed. -/
theorem shutdown_return_before_dtor_counterexample :
    ShutdownReach 2 1 [1]
    ∧ flagOf [1] 0 = 1
    ∧ ¬ ([1].getD 0 0 = 2) :=
  ⟨ShutdownReach.step ShutdownReach.init
      (ShutdownStep.faa (List.replicate 1 0) 0 (by decide) (by decide)),
   by decide, by decide⟩

/-- Claim C7, amended: Every `~ComputeThread()` performs exactly one remote
FAA(+1) on the `control_flag_` word of segment 0 of each MemoryNode; and a
MemoryNode `m`'s destructor, which returns only when its segment-0
`control_flag_` equals `cn_threads * (last_cn_id - first_cn_id + 1) = nT`,
can only do so after every compute thread of every ComputeNode has
performed its shutdown FAA on `m` (though possibly before those threads'
destructors have finished signalling later MemoryNodes). -/
theorem shutdown_protocol_spec (numMNs nT : Nat) (seg_start was : Nat → Nat)
    (hinj : ∀ i j, i < numMNs → j < numMNs → seg_start i = seg_start j → i = j) :
    (∀ m, m < numMNs →
      (ctDtorTrace numMNs seg_start was).countP
        (fun e => match e with
          | .faa a 1 _ => decide (a = seg_start m + CONTROL_FLAG_OFF)
          | _ => false) = 1)
    ∧ (∀ done m, ShutdownReach numMNs nT done → flagOf done m = nT →
        ∀ t, t < nT → m < done.getD t 0) := by
  constructor
  · intro m hm
    rw [ctDtorTrace, List.countP_map]
    apply countP_range_eq_one _ numMNs m hm
    intro i hi
    constructor
    · intro hp
      simp only [Function.comp] at hp
      have : seg_start i + CONTROL_FLAG_OFF = seg_start m + CONTROL_FLAG_OFF := by
        simpa using hp
      exact hinj i m hi hm (by omega)
    · intro hi'
      subst hi'
      simp [Function.comp]
  · intro done m hreach hflag t ht
    have hlen : done.length = nT := shutdown_reach_length hreach
    have hall : ∀ d ∈ done, decide (m < d) = true := by
      rw [← List.countP_eq_length]
      rw [flagOf] at hflag
      omega
    have htl : t < done.length := by omega
    have hmem : done.getD t 0 ∈ done := by
      rw [List.getD_eq_getElem?_getD, List.getElem?_eq_getElem htl]
      exact List.getElem_mem _
    simpa using hall _ hmem

/-- Witness for `shutdown_protocol_spec`: 2 MemoryNodes with segment bases
`seg_start i = i`; each thread destructor FAAs each control flag once. -/
theorem shutdown_protocol_spec_witness :
    (∀ i j : Nat, i < 2 → j < 2 → (fun i => i) i = (fun i => i) j → i = j)
    ∧ ((ctDtorTrace 2 (fun i => i) (fun _ => 0)).countP
        (fun e => match e with
          | .faa a 1 _ => decide (a = (fun i : Nat => i) 0 + CONTROL_FLAG_OFF)
          | _ => false) = 1) :=
  ⟨fun i j _ _ h => h,
   (shutdown_protocol_spec 2 1 (fun i => i) (fun _ => 0)
      (fun i j _ _ h => h)).1 0 (by decide)⟩

/-- Witness for `find_seq_idx_spec`: an empty coroutine slot with
`CN_OPS_PER_THREAD = 2`, `CN_WRS_PER_SEQ = 4` allocates the fresh group 0. -/
theorem find_seq_idx_spec_witness :
    ((⟨[], ⟨0, 0, [.AVAILABLE, .AVAILABLE]⟩⟩ : SeqState).ring.assignments.length = 2)
    ∧ find_seq_idx 2 4 ⟨[], ⟨0, 0, [.AVAILABLE, .AVAILABLE]⟩⟩
        = .fresh 0 ⟨[(0, ⟨false, 0⟩)], ⟨0, 1, [.IN_USE, .AVAILABLE]⟩⟩ :=
  ⟨by decide, by
    have h := ((find_seq_idx_spec 2 4 ⟨[], ⟨0, 0, [.AVAILABLE, .AVAILABLE]⟩⟩
        (by decide)).2 (Or.inl rfl)).1 (by decide) (by decide)
    simpa using h⟩

end Remus
